import Mathlib

/-!
Verification of the P-Touch raster driver core: the TIFF-style run-length
compressor, the tape geometry table, the fixed 32-byte status decoder, the
bitmap rasterizer, the raster command builder, and the print orchestration.
Bytes are modelled as `Nat` values with explicit `% 256` where the source
casts to `u8`, byte buffers as `List Nat`.
-/

namespace Ptouch

/-! ## Run-length compression (src/printable_image.rs) -/

/-- Length of the maximal prefix of `l` whose elements all equal `b`. -/
def prefixRun (b : Nat) : List Nat → Nat
  | [] => 0
  | a :: r => if a = b then prefixRun b r + 1 else 0

/-- Length of the maximal run of identical bytes at the head of the list. -/
def leadRun : List Nat → Nat
  | [] => 0
  | a :: r => prefixRun a r + 1

/-- Embeds `take_consecutive_run`: returns the run of identical bytes at the
head of the data (capped at 255 bytes), or `[]` unless at least two equal
bytes begin the data. -/
def take_consecutive_run : List Nat → List Nat
  | [] => []
  | [_] => []
  | a :: b :: r =>
    if a = b then (a :: b :: r).take (min (leadRun (a :: b :: r)) 255) else []

/-- Loop of `take_literal_run`: number of bytes consumed, stopping at the
first position where a consecutive run begins, with remaining fuel `k`
(the source caps the literal length at 127). -/
def literalLen : List Nat → Nat → Nat
  | [], _ => 0
  | _ :: _, 0 => 0
  | a :: r, k + 1 =>
    if take_consecutive_run (a :: r) = [] then literalLen r k + 1 else 0

/-- Embeds `take_literal_run`: maximal run of up to 127 bytes containing no
two equal consecutive bytes. -/
def take_literal_run (d : List Nat) : List Nat := d.take (literalLen d 127)

/-- Loop body of `compress_tiff_group4`. The fuel argument only bounds the
number of loop iterations; each iteration consumes at least one input byte,
so fuel `data.length` always suffices. -/
def compressGo : Nat → List Nat → List Nat
  | _, [] => []
  | 0, _ :: _ => []
  | f + 1, a :: rest =>
    if take_consecutive_run (a :: rest) = [] then
      ((take_literal_run (a :: rest)).length - 1) % 256 ::
        (take_literal_run (a :: rest) ++
          compressGo f ((a :: rest).drop (take_literal_run (a :: rest)).length))
    else
      (256 - ((take_consecutive_run (a :: rest)).length - 1)) % 256 ::
        (take_consecutive_run (a :: rest)).headD 0 ::
          compressGo f ((a :: rest).drop (take_consecutive_run (a :: rest)).length)

/-- Embeds `compress_tiff_group4`: greedy left-to-right run-length encoding.
A run of N identical bytes becomes control byte `(256-(N-1)) % 256` plus the
repeated byte; a literal of L bytes becomes control byte `L-1` plus the raw
bytes. -/
def compress_tiff_group4 (data : List Nat) : List Nat := compressGo data.length data

/-- Loop body of the decoder, with fuel (each step consumes at least one
byte of the compressed stream). -/
def expandGo : Nat → List Nat → Option (List Nat)
  | _, [] => some []
  | 0, _ :: _ => none
  | f + 1, c :: rest =>
    if 128 ≤ c then
      if rest = [] then none
      else (expandGo f rest.tail).map
        (fun t => List.replicate (257 - c) (rest.headD 0) ++ t)
    else
      if rest.length < c + 1 then none
      else (expandGo f (rest.drop (c + 1))).map (fun t => rest.take (c + 1) ++ t)

/-- Modelled from the spec: the decoding rule for the compressed format (a
control byte read as a negative signed value `-(N-1)`, i.e. an unsigned byte
`c ≥ 128` with `N = 257 - c`, followed by one value byte expands to that byte
repeated N times; a control byte read as a non-negative signed value `k < 128`
followed by `k+1` raw bytes expands to those raw bytes). The decoder itself
is not part of the repository; only the encoder is. -/
def expand_tiff (d : List Nat) : Option (List Nat) := expandGo d.length d

/-- Checks that every run of identical consecutive bytes in `d` has length
at most 129 (the largest run length whose control byte still reads as a
negative signed value). -/
def runsBoundedB (d : List Nat) : Bool :=
  (List.range d.length).all fun i => decide (leadRun (d.drop i) ≤ 129)

/-- Index of the first position where a run of two identical consecutive
bytes begins; the list length if there is none (the final element, which
cannot start a pair, is counted as position `length - 1` passed over). -/
def firstPairIdx : List Nat → Nat
  | [] => 0
  | [_] => 1
  | a :: b :: r => if a = b then 0 else firstPairIdx (b :: r) + 1

/-! ## Tape geometry table (src/tape.rs) -/

/-- The supported tape cartridges: nominal width class at 360dpi (H) or
180dpi (L). -/
inductive Tape
  | TZe3H | TZe6H | TZe9H | TZe12H | TZe18H | TZe24H | TZe36H
  | TZe3L | TZe6L | TZe9L | TZe12L | TZe18L | TZe24L
  deriving DecidableEq

/-- Embeds `TapeSpec`: physical dot/pin layout of one (width class, dpi)
combination. -/
structure TapeSpec where
  name : Tape
  width_mm : Nat
  width_dots : Nat
  inner_dots : Nat
  total_pins : Nat
  right_pins : Nat
  dpi : Nat

/-- Embeds `TapeSpec::new`: the static geometry table. -/
def TapeSpec.new (t : Tape) : TapeSpec :=
  match t with
  | .TZe3H  => ⟨t,  4,  48,  48, 560, 264, 360⟩
  | .TZe6H  => ⟨t,  6,  84,  64, 560, 256, 360⟩
  | .TZe9H  => ⟨t,  9, 128, 106, 560, 235, 360⟩
  | .TZe12H => ⟨t, 12, 170, 150, 560, 213, 360⟩
  | .TZe18H => ⟨t, 18, 256, 234, 560, 171, 360⟩
  | .TZe24H => ⟨t, 24, 340, 320, 560, 128, 360⟩
  | .TZe36H => ⟨t, 36, 512, 454, 560,  61, 360⟩
  | .TZe3L  => ⟨t,  4,  24,  24, 128,  52, 180⟩
  | .TZe6L  => ⟨t,  6,  42,  32, 128,  48, 180⟩
  | .TZe9L  => ⟨t,  9,  64,  50, 128,  39, 180⟩
  | .TZe12L => ⟨t, 12,  84,  70, 128,  29, 180⟩
  | .TZe18L => ⟨t, 18, 128, 112, 128,   8, 180⟩
  | .TZe24L => ⟨t, 24, 170, 128, 128,   0, 180⟩

/-- Embeds `TapeSpec::from_width_dots_and_dpi`. -/
def TapeSpec.from_width_dots_and_dpi (dots dpi : Nat) : Option TapeSpec :=
  match dots, dpi with
  | 48, 360 => some (TapeSpec.new .TZe3H)
  | 84, 360 => some (TapeSpec.new .TZe6H)
  | 128, 360 => some (TapeSpec.new .TZe9H)
  | 170, 360 => some (TapeSpec.new .TZe12H)
  | 256, 360 => some (TapeSpec.new .TZe18H)
  | 340, 360 => some (TapeSpec.new .TZe24H)
  | 512, 360 => some (TapeSpec.new .TZe36H)
  | 24, 180 => some (TapeSpec.new .TZe3L)
  | 42, 180 => some (TapeSpec.new .TZe6L)
  | 64, 180 => some (TapeSpec.new .TZe9L)
  | 84, 180 => some (TapeSpec.new .TZe12L)
  | 128, 180 => some (TapeSpec.new .TZe18L)
  | 170, 180 => some (TapeSpec.new .TZe24L)
  | _, _ => none

/-- Embeds `TapeSpec::from_width_mm_and_dpi`. -/
def TapeSpec.from_width_mm_and_dpi (mm dpi : Nat) : Option TapeSpec :=
  match mm, dpi with
  | 4, 360 => some (TapeSpec.new .TZe3H)
  | 6, 360 => some (TapeSpec.new .TZe6H)
  | 9, 360 => some (TapeSpec.new .TZe9H)
  | 12, 360 => some (TapeSpec.new .TZe12H)
  | 18, 360 => some (TapeSpec.new .TZe18H)
  | 24, 360 => some (TapeSpec.new .TZe24H)
  | 36, 360 => some (TapeSpec.new .TZe36H)
  | 4, 180 => some (TapeSpec.new .TZe3L)
  | 6, 180 => some (TapeSpec.new .TZe6L)
  | 9, 180 => some (TapeSpec.new .TZe9L)
  | 12, 180 => some (TapeSpec.new .TZe12L)
  | 18, 180 => some (TapeSpec.new .TZe18L)
  | 24, 180 => some (TapeSpec.new .TZe24L)
  | _, _ => none

/-! ## Status decoder (src/status.rs); a status record is a 32-byte list -/

/-- Embeds `Status::error_info1` (offset 8). -/
def error_info1 (s : List Nat) : Nat := s.getD 8 0

/-- Embeds `Status::error_info2` (offset 9). -/
def error_info2 (s : List Nat) : Nat := s.getD 9 0

/-- Embeds `Status::has_errors`: either error-bitmask byte nonzero. -/
def has_errors (s : List Nat) : Bool :=
  decide (error_info1 s ≠ 0) || decide (error_info2 s ≠ 0)

/-- Embeds `Status::media_width_mm` (offset 10). -/
def media_width_mm (s : List Nat) : Nat := s.getD 10 0

/-- Embeds `Status::printer_dpi`: model-id byte (offset 4) to dpi; the
source's `match` tests the listed model ids in order and defaults to 360. -/
def printer_dpi (s : List Nat) : Nat :=
  let b := s.getD 4 0
  if b = 0x6F ∨ b = 0x70 ∨ b = 0x71 ∨ b = 0x78 then 360
  else if b = 0x5A then 180
  else 360

/-! ## Bitmap rasterizer (src/printable_image.rs, png_to_raster_lines).
The PNG decoding itself is external; the embedding starts from the decoded
8-bit grayscale buffer (row-major, `width * height` entries). -/

/-- Sets pin `pin` in a raster line: byte `pin / 8`, bit `7 - pin % 8`
(MSB-first), or-ing the mask into the existing byte. -/
def set_pin (line : List Nat) (pin : Nat) : List Nat :=
  line.set (pin / 8) (line.getD (pin / 8) 0 ||| (1 <<< (7 - pin % 8)))

/-- Reads pin `pin` of a raster line (MSB-first within each byte). -/
def get_pin_bit (line : List Nat) (pin : Nat) : Bool :=
  (line.getD (pin / 8) 0).testBit (7 - pin % 8)

/-- Body of the inner `for y` loop of `png_to_raster_lines` for column `x`:
maps source row `y` to pin `right_pins + (y - margin)`, setting the pin when
the pixel is dark (grayscale value < 127) and all bounds checks pass. -/
def raster_step (spec : TapeSpec) (gray : List Nat) (width x margin : Nat)
    (line : List Nat) (y : Nat) : List Nat :=
  if spec.right_pins + (y - margin) < spec.total_pins then
    if y * width + x < gray.length then
      if gray.getD (y * width + x) 0 < 127 then
        set_pin line (spec.right_pins + (y - margin))
      else line
    else line
  else line

/-- One raster line of `png_to_raster_lines` (the body of the outer `for x`
loop): `total_pins/8` zero bytes, then the `for y in
margin..(margin+inner).min(height)` loop. -/
def build_raster_line (gray : List Nat) (width height : Nat) (spec : TapeSpec)
    (x : Nat) : List Nat :=
  (List.range' ((spec.width_dots - spec.inner_dots) / 2)
      (min ((spec.width_dots - spec.inner_dots) / 2 + spec.inner_dots) height -
        (spec.width_dots - spec.inner_dots) / 2)).foldl
    (raster_step spec gray width x ((spec.width_dots - spec.inner_dots) / 2))
    (List.replicate (spec.total_pins / 8) 0)

/-- Embeds `png_to_raster_lines`: one raster line per image column, in
column order. -/
def png_to_raster_lines (gray : List Nat) (width height : Nat)
    (spec : TapeSpec) : List (List Nat) :=
  (List.range width).map (build_raster_line gray width height spec)

/-! ## Raster command builder (src/raster_command.rs). Every method appends
a record to the buffer and is embedded as a function on the buffer. -/

/-- Embeds `RasterCommand::invalidate`: 200 zero bytes. -/
def invalidate (b : List Nat) : List Nat := b ++ List.replicate 200 0

/-- Embeds the ESC @ reset method (`1B 40`). -/
def initCmd (b : List Nat) : List Nat := b ++ [0x1B, 0x40]

/-- Embeds `RasterCommand::switch_dynamic_command_mode` (`1B 69 61 mode`).
Raster mode is 1. -/
def switch_dynamic_command_mode (b : List Nat) (mode : Nat) : List Nat :=
  b ++ [0x1B, 0x69, 0x61, mode % 256]

/-- Embeds `RasterCommand::print_information_command` (`1B 69 7A` + flags,
media type/width/length bytes, little-endian 32-bit raster count, page type,
reserved byte). -/
def print_information_command (b : List Nat) (quality_mode recover_mode : Bool)
    (media_type media_width media_length : Option Nat) (raster_number : Nat)
    (page_type : Nat) : List Nat :=
  let (flag1, media_type_val) :=
    match media_type with
    | some v => (0x02, v)
    | none => ((0 : Nat), (0 : Nat))
  let (flag2, media_width_val) :=
    match media_width with
    | some v => (0x04, v)
    | none => ((0 : Nat), (0 : Nat))
  let (flag3, media_length_val) :=
    match media_length with
    | some v => (0x08, v)
    | none => ((0 : Nat), (0 : Nat))
  let flag := flag1 ||| flag2 ||| flag3 |||
    ((if quality_mode then 1 else 0) <<< 6) |||
    ((if recover_mode then 1 else 0) <<< 7)
  b ++ [0x1B, 0x69, 0x7A, flag, media_type_val % 256, media_width_val % 256,
    media_length_val % 256, raster_number % 256, (raster_number >>> 8) % 256,
    (raster_number >>> 16) % 256, (raster_number >>> 24) % 256,
    page_type % 256, 0x00]

/-- Embeds `RasterCommand::various_mode_settings` (`1B 69 4D` + one byte:
auto-cut bit 6, mirror bit 7). -/
def various_mode_settings (b : List Nat) (auto_cut mirror : Bool) : List Nat :=
  b ++ [0x1B, 0x69, 0x4D,
    ((if auto_cut then 1 else 0) <<< 6) ||| ((if mirror then 1 else 0) <<< 7)]

/-- Embeds `RasterCommand::advanced_mode_settings` (`1B 69 4B` + one byte). -/
def advanced_mode_settings (b : List Nat)
    (draft half_cut no_chain special_tape high_resolution no_clear : Bool) :
    List Nat :=
  b ++ [0x1B, 0x69, 0x4B,
    (if draft then 1 else 0) |||
    ((if half_cut then 1 else 0) <<< 2) |||
    ((if no_chain then 1 else 0) <<< 3) |||
    ((if special_tape then 1 else 0) <<< 4) |||
    ((if high_resolution then 1 else 0) <<< 6) |||
    ((if no_clear then 1 else 0) <<< 7)]

/-- Embeds `RasterCommand::specify_margin_amount` (`1B 69 64` + little-endian
16-bit dot count). No validation is performed on `dots`. -/
def specify_margin_amount (b : List Nat) (dots : Nat) : List Nat :=
  b ++ [0x1B, 0x69, 0x64, dots % 256, (dots >>> 8) % 256]

/-- Embeds `RasterCommand::specify_page_number` (`1B 69 41` + one byte). -/
def specify_page_number (b : List Nat) (n : Nat) : List Nat :=
  b ++ [0x1B, 0x69, 0x41, n % 256]

/-- Embeds `RasterCommand::select_compression_mode` (`4D` + one byte:
2 = TIFF compression, 0 = none). -/
def select_compression_mode (b : List Nat) (tiff : Bool) : List Nat :=
  b ++ [0x4D, if tiff then 0x02 else 0x00]

/-- Embeds `RasterCommand::raster_graphics_transfer` (`47` + little-endian
16-bit payload length + payload; the length is cast to `u16`). -/
def raster_graphics_transfer (b : List Nat) (data : List Nat) : List Nat :=
  b ++ (0x47 :: (data.length % 65536) % 256 :: ((data.length % 65536) >>> 8) % 256 :: data)

/-- Embeds `RasterCommand::print_command_with_feeding` (`1A`). -/
def print_command_with_feeding (b : List Nat) : List Nat := b ++ [0x1A]

/-! ## Print orchestration (src/printer.rs Printer::print and
src/main.rs handle_print_command) -/

/-- Embeds the command stream built by `Printer::print` for the given raster
lines, tape width and continuous flag: the exact builder-call chain of the
source, with each line compressed and transferred in column order, ending
with the print-with-feed command. -/
def printer_print_stream (lines : List (List Nat)) (width_mm : Nat)
    (continuous : Bool) : List Nat :=
  print_command_with_feeding
    (lines.foldl (fun b l => raster_graphics_transfer b (compress_tiff_group4 l))
      (select_compression_mode
        (specify_margin_amount
          (advanced_mode_settings
            (specify_page_number
              (various_mode_settings
                (print_information_command
                  (switch_dynamic_command_mode (initCmd (invalidate [])) 1)
                  false true (some 0) (some width_mm) (some 0) lines.length 2)
                (!continuous) false)
              1)
            false true (!continuous) false false false)
          14)
        true))

/-- The same stream, record by record: each entry is one builder method's
appended bytes (a method applied to the empty buffer). -/
def print_records (lines : List (List Nat)) (width_mm : Nat)
    (continuous : Bool) : List (List Nat) :=
  [invalidate [], initCmd [], switch_dynamic_command_mode [] 1,
    print_information_command [] false true (some 0) (some width_mm) (some 0)
      lines.length 2,
    various_mode_settings [] (!continuous) false,
    specify_page_number [] 1,
    advanced_mode_settings [] false true (!continuous) false false false,
    specify_margin_amount [] 14,
    select_compression_mode [] true]
  ++ lines.map (fun l => raster_graphics_transfer [] (compress_tiff_group4 l))
  ++ [print_command_with_feeding []]

/-- Embeds `Printer::print` composed with the rasterizer: the single
command stream sent for one job. -/
def printer_print (gray : List Nat) (width height : Nat) (spec : TapeSpec)
    (continuous : Bool) : List Nat :=
  printer_print_stream (png_to_raster_lines gray width height spec)
    spec.width_mm continuous

/-- Error outcomes of `handle_print_command` (the source reports them as
strings; only their identity matters here). -/
inductive PrintError
  | printerReportedError
  | unsupportedPngHeight
  | unsupportedTapeWidth
  | tapeSpecMismatch
  | pngHeightMismatch
  deriving DecidableEq

/-- Embeds the control flow of `handle_print_command` (src/main.rs) given
the fetched 32-byte status record and the decoded PNG: the status error
check comes first, then the two geometry lookups, the cross-validation, the
PNG height check of `PrintableImage::from_png_data`, and only then the print.
The second component is the list of command streams passed to the
transport's `send_command`; nothing is sent on any error path. -/
def handle_print_command (status : List Nat) (pngHeight pngWidth : Nat)
    (gray : List Nat) (continuous : Bool) :
    Except PrintError Unit × List (List Nat) :=
  if has_errors status then (Except.error .printerReportedError, [])
  else
    let dpi := printer_dpi status
    match TapeSpec.from_width_dots_and_dpi pngHeight dpi with
    | none => (Except.error .unsupportedPngHeight, [])
    | some png_spec =>
      match TapeSpec.from_width_mm_and_dpi (media_width_mm status) dpi with
      | none => (Except.error .unsupportedTapeWidth, [])
      | some printer_spec =>
        if png_spec.width_dots ≠ printer_spec.width_dots then
          (Except.error .tapeSpecMismatch, [])
        else if pngHeight ≠ printer_spec.width_dots then
          (Except.error .pngHeightMismatch, [])
        else
          (Except.ok (),
            [printer_print gray pngWidth pngHeight printer_spec continuous])

/-! ## Lemmas about the run-length compressor -/

theorem prefixRun_le_length (b : Nat) : ∀ l : List Nat, prefixRun b l ≤ l.length := by
  intro l
  induction l with
  | nil => simp [prefixRun]
  | cons a r ih =>
    simp only [prefixRun, List.length_cons]
    split
    · omega
    · omega

theorem take_of_le_prefixRun (b : Nat) :
    ∀ (l : List Nat) (n : Nat), n ≤ prefixRun b l → l.take n = List.replicate n b := by
  intro l
  induction l with
  | nil =>
    intro n h
    simp [prefixRun] at h
    simp [h]
  | cons a r ih =>
    intro n h
    cases n with
    | zero => simp
    | succ m =>
      simp only [prefixRun] at h
      by_cases hab : a = b
      · subst hab
        rw [if_pos rfl] at h
        simp only [List.take_succ_cons, List.replicate_succ]
        rw [ih m (by omega)]
      · rw [if_neg hab] at h
        omega

theorem leadRun_le_length : ∀ d : List Nat, leadRun d ≤ d.length := by
  intro d
  cases d with
  | nil => simp [leadRun]
  | cons a r =>
    simp only [leadRun, List.length_cons]
    have := prefixRun_le_length a r
    omega

theorem take_of_le_leadRun :
    ∀ (d : List Nat) (n : Nat), n ≤ leadRun d → d.take n = List.replicate n (d.headD 0) := by
  intro d n h
  cases d with
  | nil => simp [leadRun] at h; simp [h]
  | cons a r =>
    simp only [leadRun] at h
    cases n with
    | zero => simp
    | succ m =>
      simp only [List.take_succ_cons, List.headD_cons, List.replicate_succ]
      rw [take_of_le_prefixRun a r m (by omega)]

theorem leadRun_cons_cons (a : Nat) (r : List Nat) :
    leadRun (a :: a :: r) = prefixRun a r + 2 := by
  simp [leadRun, prefixRun]

theorem tcr_of_pair (a : Nat) (r : List Nat) :
    take_consecutive_run (a :: a :: r) =
      (a :: a :: r).take (min (leadRun (a :: a :: r)) 255) := by
  simp [take_consecutive_run]

theorem tcr_of_ne (a b : Nat) (r : List Nat) (h : a ≠ b) :
    take_consecutive_run (a :: b :: r) = [] := by
  simp [take_consecutive_run, h]

theorem tcr_nil : take_consecutive_run [] = [] := rfl

theorem tcr_single (a : Nat) : take_consecutive_run [a] = [] := rfl

theorem tcr_ne_nil_iff (d : List Nat) :
    take_consecutive_run d ≠ [] ↔ 2 ≤ d.length ∧ d.getD 0 0 = d.getD 1 0 := by
  match d with
  | [] => simp [tcr_nil]
  | [a] => simp [tcr_single]
  | a :: b :: r =>
    by_cases hab : a = b
    · subst hab
      rw [tcr_of_pair]
      constructor
      · intro _
        exact ⟨by simp only [List.length_cons]; omega, by simp⟩
      · intro _
        have h2 : 2 ≤ min (leadRun (a :: a :: r)) 255 := by
          rw [leadRun_cons_cons]; omega
        intro hc
        have := congrArg List.length hc
        simp [List.length_take] at this
        omega
    · simp [tcr_of_ne a b r hab, hab]

theorem tcr_spec (d : List Nat) (h : take_consecutive_run d ≠ []) :
    take_consecutive_run d = List.replicate (min (leadRun d) 255) (d.headD 0) ∧
    (take_consecutive_run d).length = min (leadRun d) 255 ∧
    2 ≤ min (leadRun d) 255 := by
  match d with
  | [] => simp [tcr_nil] at h
  | [a] => simp [tcr_single] at h
  | a :: b :: r =>
    by_cases hab : a = b
    · subst hab
      rw [tcr_of_pair]
      have h2 : 2 ≤ min (leadRun (a :: a :: r)) 255 := by
        rw [leadRun_cons_cons]; omega
      have hlen : min (leadRun (a :: a :: r)) 255 ≤ (a :: a :: r).length :=
        le_trans (Nat.min_le_left _ _) (leadRun_le_length _)
      refine ⟨?_, ?_, h2⟩
      · exact take_of_le_leadRun _ _ (Nat.min_le_left _ _)
      · rw [List.length_take]; omega
    · simp [tcr_of_ne a b r hab] at h

theorem literalLen_le_length : ∀ (l : List Nat) (k : Nat), literalLen l k ≤ l.length := by
  intro l
  induction l with
  | nil => intro k; simp [literalLen]
  | cons a r ih =>
    intro k
    cases k with
    | zero => simp [literalLen]
    | succ m =>
      simp only [literalLen, List.length_cons]
      split
      · have := ih m; omega
      · omega

theorem literalLen_le_fuel : ∀ (l : List Nat) (k : Nat), literalLen l k ≤ k := by
  intro l
  induction l with
  | nil => intro k; simp [literalLen]
  | cons a r ih =>
    intro k
    cases k with
    | zero => simp [literalLen]
    | succ m =>
      simp only [literalLen]
      split
      · have := ih m; omega
      · omega

theorem literalLen_pos (a : Nat) (r : List Nat)
    (h : take_consecutive_run (a :: r) = []) : 1 ≤ literalLen (a :: r) 127 := by
  show 1 ≤ literalLen (a :: r) (126 + 1)
  simp only [literalLen]
  rw [if_pos h]
  omega

theorem take_literal_run_length (d : List Nat) :
    (take_literal_run d).length = literalLen d 127 := by
  simp only [take_literal_run, List.length_take]
  have := literalLen_le_length d 127
  omega

theorem compressGo_congr :
    ∀ (f g : Nat) (d : List Nat), d.length ≤ f → d.length ≤ g →
      compressGo f d = compressGo g d := by
  intro f
  induction f with
  | zero =>
    intro g d hf _
    have hd : d = [] := List.length_eq_zero.mp (Nat.le_zero.mp hf)
    subst hd
    cases g <;> rfl
  | succ f ih =>
    intro g d hf hg
    cases d with
    | nil => cases g <;> rfl
    | cons a rest =>
      cases g with
      | zero => simp at hg
      | succ g' =>
      simp only [compressGo]
      by_cases hr : take_consecutive_run (a :: rest) = []
      · rw [if_pos hr, if_pos hr]
        have hlit : 1 ≤ (take_literal_run (a :: rest)).length := by
          rw [take_literal_run_length]
          exact literalLen_pos a rest hr
        have hdroplen :
            ((a :: rest).drop (take_literal_run (a :: rest)).length).length ≤ f ∧
            ((a :: rest).drop (take_literal_run (a :: rest)).length).length ≤ g' := by
          rw [List.length_drop]
          simp only [List.length_cons] at hf hg ⊢
          omega
        rw [ih g' _ hdroplen.1 hdroplen.2]
      · rw [if_neg hr, if_neg hr]
        have hrun : 1 ≤ (take_consecutive_run (a :: rest)).length :=
          List.length_pos.mpr hr
        have hdroplen :
            ((a :: rest).drop (take_consecutive_run (a :: rest)).length).length ≤ f ∧
            ((a :: rest).drop (take_consecutive_run (a :: rest)).length).length ≤ g' := by
          rw [List.length_drop]
          simp only [List.length_cons] at hf hg ⊢
          omega
        rw [ih g' _ hdroplen.1 hdroplen.2]

theorem compress_nil_eq : compress_tiff_group4 [] = [] := rfl

theorem compress_run_eq (d : List Nat) (hd : d ≠ [])
    (hr : take_consecutive_run d ≠ []) :
    compress_tiff_group4 d =
      (256 - ((take_consecutive_run d).length - 1)) % 256 ::
        (take_consecutive_run d).headD 0 ::
          compress_tiff_group4 (d.drop (take_consecutive_run d).length) := by
  match d with
  | [] => exact absurd rfl hd
  | a :: rest =>
    show compressGo ((a :: rest).length) (a :: rest) = _
    have hlen : (a :: rest).length = rest.length + 1 := List.length_cons a rest
    rw [hlen]
    simp only [compressGo]
    rw [if_neg hr]
    have hrun : 1 ≤ (take_consecutive_run (a :: rest)).length :=
      List.length_pos.mpr hr
    have : compressGo rest.length ((a :: rest).drop (take_consecutive_run (a :: rest)).length) =
        compress_tiff_group4 ((a :: rest).drop (take_consecutive_run (a :: rest)).length) := by
      apply compressGo_congr
      · rw [List.length_drop]; simp only [List.length_cons]; omega
      · exact le_rfl
    rw [this]

theorem compress_lit_eq (d : List Nat) (hd : d ≠ [])
    (hr : take_consecutive_run d = []) :
    compress_tiff_group4 d =
      ((take_literal_run d).length - 1) % 256 ::
        (take_literal_run d ++
          compress_tiff_group4 (d.drop (take_literal_run d).length)) := by
  match d with
  | [] => exact absurd rfl hd
  | a :: rest =>
    show compressGo ((a :: rest).length) (a :: rest) = _
    have hlen : (a :: rest).length = rest.length + 1 := List.length_cons a rest
    rw [hlen]
    simp only [compressGo]
    rw [if_pos hr]
    have hlit : 1 ≤ (take_literal_run (a :: rest)).length := by
      rw [take_literal_run_length]
      exact literalLen_pos a rest hr
    have : compressGo rest.length ((a :: rest).drop (take_literal_run (a :: rest)).length) =
        compress_tiff_group4 ((a :: rest).drop (take_literal_run (a :: rest)).length) := by
      apply compressGo_congr
      · rw [List.length_drop]; simp only [List.length_cons]; omega
      · exact le_rfl
    rw [this]

theorem expandGo_congr :
    ∀ (f g : Nat) (d : List Nat), d.length ≤ f → d.length ≤ g →
      expandGo f d = expandGo g d := by
  intro f
  induction f with
  | zero =>
    intro g d hf _
    have hd : d = [] := List.length_eq_zero.mp (Nat.le_zero.mp hf)
    subst hd
    cases g <;> rfl
  | succ f ih =>
    intro g d hf hg
    cases d with
    | nil => cases g <;> rfl
    | cons c rest =>
      cases g with
      | zero => simp at hg
      | succ g' =>
      simp only [expandGo]
      by_cases hc : 128 ≤ c
      · rw [if_pos hc, if_pos hc]
        by_cases hrest : rest = []
        · rw [if_pos hrest, if_pos hrest]
        · rw [if_neg hrest, if_neg hrest]
          simp only [List.length_cons] at hf hg
          have htl : rest.tail.length ≤ f ∧ rest.tail.length ≤ g' := by
            rw [List.length_tail]
            omega
          rw [ih g' rest.tail htl.1 htl.2]
      · rw [if_neg hc, if_neg hc]
        by_cases hlen : rest.length < c + 1
        · rw [if_pos hlen, if_pos hlen]
        · rw [if_neg hlen, if_neg hlen]
          simp only [List.length_cons] at hf hg
          have hd2 : (rest.drop (c + 1)).length ≤ f ∧ (rest.drop (c + 1)).length ≤ g' := by
            rw [List.length_drop]
            omega
          rw [ih g' _ hd2.1 hd2.2]

theorem expand_nil_eq : expand_tiff [] = some [] := rfl

theorem expand_run_eq (c v : Nat) (t : List Nat) (hc : 128 ≤ c) :
    expand_tiff (c :: v :: t) =
      (expand_tiff t).map (fun u => List.replicate (257 - c) v ++ u) := by
  show expandGo ((c :: v :: t).length) (c :: v :: t) = _
  have hlen : (c :: v :: t).length = (t.length + 1) + 1 := by simp
  rw [hlen]
  simp only [expandGo]
  rw [if_pos hc, if_neg (List.cons_ne_nil v t)]
  simp only [List.tail_cons, List.headD_cons]
  rw [expandGo_congr (t.length + 1) t.length t (by omega) le_rfl]
  rfl

theorem expand_lit_eq (c : Nat) (rest : List Nat) (hc : ¬ 128 ≤ c)
    (hlen : ¬ rest.length < c + 1) :
    expand_tiff (c :: rest) =
      (expand_tiff (rest.drop (c + 1))).map (fun u => rest.take (c + 1) ++ u) := by
  show expandGo ((c :: rest).length) (c :: rest) = _
  have hl : (c :: rest).length = rest.length + 1 := List.length_cons c rest
  rw [hl]
  simp only [expandGo]
  rw [if_neg hc, if_neg hlen]
  rw [expandGo_congr rest.length (rest.drop (c + 1)).length (rest.drop (c + 1))
    (by rw [List.length_drop]; omega) le_rfl]
  rfl

theorem runsBoundedB_leadRun (d : List Nat) (hd : d ≠ [])
    (h : runsBoundedB d = true) : leadRun d ≤ 129 := by
  have h0 : 0 ∈ List.range d.length := by
    rw [List.mem_range]
    exact List.length_pos.mpr hd
  have := (List.all_eq_true.mp h) 0 h0
  simpa using this

theorem runsBoundedB_drop (d : List Nat) (k : Nat)
    (h : runsBoundedB d = true) : runsBoundedB (d.drop k) = true := by
  rw [runsBoundedB, List.all_eq_true]
  intro i hi
  rw [List.mem_range] at hi
  rw [List.length_drop] at hi
  have hik : k + i ∈ List.range d.length := by
    rw [List.mem_range]; omega
  have := (List.all_eq_true.mp h) (k + i) hik
  rw [List.drop_drop]
  simpa [Nat.add_comm] using this

theorem expand_compress_aux :
    ∀ (n : Nat) (d : List Nat), d.length ≤ n → runsBoundedB d = true →
      expand_tiff (compress_tiff_group4 d) = some d := by
  intro n
  induction n with
  | zero =>
    intro d hlen _
    have hd : d = [] := List.length_eq_zero.mp (Nat.le_zero.mp hlen)
    subst hd
    rfl
  | succ n ih =>
    intro d hlen hb
    cases d with
    | nil => rfl
    | cons a rest =>
      by_cases hr : take_consecutive_run (a :: rest) = []
      · -- literal record
        have hL1 : 1 ≤ literalLen (a :: rest) 127 := literalLen_pos a rest hr
        have hL127 : literalLen (a :: rest) 127 ≤ 127 := literalLen_le_fuel _ _
        have hLle : literalLen (a :: rest) 127 ≤ (a :: rest).length :=
          literalLen_le_length _ _
        have htlr : take_literal_run (a :: rest) =
            (a :: rest).take (literalLen (a :: rest) 127) := rfl
        have hlen_take : ((a :: rest).take (literalLen (a :: rest) 127)).length =
            literalLen (a :: rest) 127 := by
          rw [List.length_take]; omega
        have hlen_take2 : (take_literal_run (a :: rest)).length =
            literalLen (a :: rest) 127 := by rw [htlr]; exact hlen_take
        rw [compress_lit_eq (a :: rest) (List.cons_ne_nil a rest) hr, htlr, hlen_take]
        have hmod : (literalLen (a :: rest) 127 - 1) % 256 =
            literalLen (a :: rest) 127 - 1 := Nat.mod_eq_of_lt (by omega)
        rw [hmod]
        have hc : ¬ 128 ≤ literalLen (a :: rest) 127 - 1 := by omega
        have hrest : ¬ ((a :: rest).take (literalLen (a :: rest) 127) ++
            compress_tiff_group4 ((a :: rest).drop (literalLen (a :: rest) 127))).length <
            (literalLen (a :: rest) 127 - 1) + 1 := by
          rw [List.length_append, hlen_take]
          omega
        rw [expand_lit_eq _ _ hc hrest]
        have hsucc : literalLen (a :: rest) 127 - 1 + 1 =
            literalLen (a :: rest) 127 := by omega
        rw [hsucc, List.take_left' hlen_take, List.drop_left' hlen_take]
        have hdrop : ((a :: rest).drop (literalLen (a :: rest) 127)).length ≤ n := by
          rw [List.length_drop]
          simp only [List.length_cons] at hlen ⊢
          omega
        rw [ih _ hdrop (runsBoundedB_drop _ _ hb)]
        rw [Option.map_some']
        rw [List.take_append_drop]
      · -- run record
        obtain ⟨hrep, hlen2, h2⟩ := tcr_spec _ hr
        have hlr : leadRun (a :: rest) ≤ 129 :=
          runsBoundedB_leadRun _ (List.cons_ne_nil a rest) hb
        have hm : min (leadRun (a :: rest)) 255 = leadRun (a :: rest) :=
          Nat.min_eq_left (by omega)
        rw [compress_run_eq (a :: rest) (List.cons_ne_nil a rest) hr]
        rw [hlen2]
        set m := min (leadRun (a :: rest)) 255 with hmdef
        have hm2 : 2 ≤ m := h2
        have hm129 : m ≤ 129 := by omega
        have hmod : (256 - (m - 1)) % 256 = 256 - (m - 1) := Nat.mod_eq_of_lt (by omega)
        rw [hmod]
        have hc : 128 ≤ 256 - (m - 1) := by omega
        rw [expand_run_eq _ _ _ hc]
        have hdrop : ((a :: rest).drop m).length ≤ n := by
          rw [List.length_drop]
          simp only [List.length_cons] at hlen ⊢
          omega
        rw [ih _ hdrop (runsBoundedB_drop _ _ hb)]
        rw [Option.map_some']
        have h257 : 257 - (256 - (m - 1)) = m := by omega
        rw [h257]
        have hhead : (take_consecutive_run (a :: rest)).headD 0 = (a :: rest).headD 0 := by
          rw [hrep]
          cases hm' : m with
          | zero => omega
          | succ k => simp [List.replicate_succ]
        rw [hhead]
        have htake : (a :: rest).take m = List.replicate m ((a :: rest).headD 0) :=
          take_of_le_leadRun _ _ (by omega)
        rw [← htake, List.take_append_drop]

/-- Claim C1 (amended): expanding the compressed output under the spec's
decoding rule reproduces the input for every byte sequence whose runs of
identical consecutive bytes all have length at most 129. (For a longer run
the emitted control byte `256-(N-1)` drops below 128 and reads as a
non-negative signed value, so the round trip fails; see the
counterexample.) -/
theorem c1_roundtrip_bounded (d : List Nat) (hb : runsBoundedB d = true) :
    expand_tiff (compress_tiff_group4 d) = some d :=
  expand_compress_aux d.length d le_rfl hb

/-- Claim C1 witness: a concrete sequence with runs of length ≤ 129
round-trips. -/
theorem c1_roundtrip_bounded_witness :
    runsBoundedB [0, 0, 0, 7, 7, 9] = true ∧
    expand_tiff (compress_tiff_group4 [0, 0, 0, 7, 7, 9]) = some [0, 0, 0, 7, 7, 9] :=
  ⟨by decide, c1_roundtrip_bounded [0, 0, 0, 7, 7, 9] (by decide)⟩

set_option maxRecDepth 8000 in
/-- Claim C1 counterexample: for 130 copies of byte 0 the compressor emits
control byte 127 (non-negative as a signed value), so the spec's decoding
rule does not reproduce the input. -/
theorem c1_counterexample :
    expand_tiff (compress_tiff_group4 (List.replicate 130 0)) ≠
      some (List.replicate 130 0) := by decide

theorem prefixRun_replicate (b : Nat) : ∀ k : Nat, prefixRun b (List.replicate k b) = k := by
  intro k
  induction k with
  | zero => rfl
  | succ m ih =>
    show (if b = b then prefixRun b (List.replicate m b) + 1 else 0) = m + 1
    rw [if_pos rfl, ih]

theorem leadRun_replicate (b N : Nat) (h : 1 ≤ N) :
    leadRun (List.replicate N b) = N := by
  cases N with
  | zero => omega
  | succ m =>
    simp only [List.replicate_succ, leadRun, prefixRun_replicate]

theorem getD_replicate (a : Nat) : ∀ (n i : Nat), i < n →
    (List.replicate n a).getD i 0 = a := by
  intro n
  induction n with
  | zero => intro i h; omega
  | succ m ih =>
    intro i h
    cases i with
    | zero => simp [List.replicate_succ]
    | succ j =>
      simp only [List.replicate_succ, List.getD_cons_succ]
      exact ih j (by omega)

theorem headD_replicate (a n : Nat) (h : 1 ≤ n) :
    (List.replicate n a).headD 0 = a := by
  cases n with
  | zero => omega
  | succ m => simp [List.replicate_succ]

theorem tcr_headD (d : List Nat) (h : take_consecutive_run d ≠ []) :
    (take_consecutive_run d).headD 0 = d.headD 0 := by
  obtain ⟨hrep, _, h2⟩ := tcr_spec d h
  rw [hrep]
  exact headD_replicate _ _ (by omega)

theorem compress_replicate (b N : Nat) (h2 : 2 ≤ N) (h255 : N ≤ 255) :
    compress_tiff_group4 (List.replicate N b) = [(256 - (N - 1)) % 256, b] := by
  have hlen : (List.replicate N b).length = N := List.length_replicate N b
  have hne : List.replicate N b ≠ [] := by
    intro hc
    have := congrArg List.length hc
    simp [hlen] at this
    omega
  have hr : take_consecutive_run (List.replicate N b) ≠ [] := by
    rw [tcr_ne_nil_iff]
    refine ⟨by omega, ?_⟩
    rw [getD_replicate b N 0 (by omega), getD_replicate b N 1 (by omega)]
  obtain ⟨hrep, hlen2, hmin2⟩ := tcr_spec _ hr
  have hlead : leadRun (List.replicate N b) = N := leadRun_replicate b N (by omega)
  have hm : min (leadRun (List.replicate N b)) 255 = N := by rw [hlead]; omega
  rw [compress_run_eq _ hne hr, hlen2, hm, tcr_headD _ hr,
    headD_replicate b N (by omega)]
  have hdrop : (List.replicate N b).drop N = [] :=
    List.drop_eq_nil_of_le (by rw [hlen])
  rw [hdrop, compress_nil_eq]

/-- Claim C5: for every byte `b` and every `N` with `2 ≤ N ≤ 255`, the
compressor turns `N` copies of `b` into the single run record
`[(256-(N-1)) % 256, b]`; in particular 70 copies of `0x00` give
`[0xBB, 0x00]` and 70 copies of `0xFF` give `[0xBB, 0xFF]`. -/
theorem c5_run_records (b N : Nat) (h2 : 2 ≤ N) (h255 : N ≤ 255) :
    compress_tiff_group4 (List.replicate N b) = [(256 - (N - 1)) % 256, b] ∧
    compress_tiff_group4 (List.replicate 70 0x00) = [0xBB, 0x00] ∧
    compress_tiff_group4 (List.replicate 70 0xFF) = [0xBB, 0xFF] :=
  ⟨compress_replicate b N h2 h255,
   by rw [compress_replicate 0x00 70 (by omega) (by omega)],
   by rw [compress_replicate 0xFF 70 (by omega) (by omega)]⟩

/-- Claim C5 witness: the theorem applied at `b = 0`, `N = 70`. -/
theorem c5_run_records_witness :
    compress_tiff_group4 (List.replicate 70 0) = [(256 - (70 - 1)) % 256, 0] :=
  (c5_run_records 0 70 (by omega) (by omega)).1

theorem literalLen_min : ∀ (d : List Nat) (k : Nat),
    literalLen d k = min k (firstPairIdx d) := by
  intro d
  induction d with
  | nil => intro k; simp [literalLen, firstPairIdx]
  | cons a r ih =>
    intro k
    cases k with
    | zero => simp [literalLen]
    | succ m =>
      cases r with
      | nil =>
        show (if take_consecutive_run [a] = [] then literalLen [] m + 1 else 0) =
          min (m + 1) (firstPairIdx [a])
        rw [if_pos (tcr_single a)]
        show 0 + 1 = min (m + 1) 1
        omega
      | cons b r2 =>
        by_cases hab : a = b
        · subst hab
          have hne : take_consecutive_run (a :: a :: r2) ≠ [] := by
            rw [tcr_ne_nil_iff]
            exact ⟨by simp only [List.length_cons]; omega, by simp⟩
          show (if take_consecutive_run (a :: a :: r2) = [] then
              literalLen (a :: r2) m + 1 else 0) =
            min (m + 1) (firstPairIdx (a :: a :: r2))
          rw [if_neg hne]
          show 0 = min (m + 1) (if a = a then 0 else firstPairIdx (a :: r2) + 1)
          rw [if_pos rfl]
          omega
        · have heq : take_consecutive_run (a :: b :: r2) = [] := tcr_of_ne a b r2 hab
          show (if take_consecutive_run (a :: b :: r2) = [] then
              literalLen (b :: r2) m + 1 else 0) =
            min (m + 1) (firstPairIdx (a :: b :: r2))
          rw [if_pos heq, ih m]
          show min m (firstPairIdx (b :: r2)) + 1 =
            min (m + 1) (if a = b then 0 else firstPairIdx (b :: r2) + 1)
          rw [if_neg hab]
          omega

/-- Claim C6: compression scanning is greedy left-to-right. For every
nonempty input: a repeat-run record is emitted exactly when two identical
consecutive bytes begin the remaining data; otherwise a literal record of
`min 127 (firstPairIdx d)` bytes is consumed, extending exactly up to the
next position where a repeat-run begins (or 127 bytes, or the end); and the
spec's concrete example compresses as stated. -/
theorem c6_greedy (d : List Nat) (hd : d ≠ []) :
    (take_consecutive_run d ≠ [] ↔ 2 ≤ d.length ∧ d.getD 0 0 = d.getD 1 0) ∧
    (take_consecutive_run d ≠ [] →
      compress_tiff_group4 d =
        (256 - ((take_consecutive_run d).length - 1)) % 256 :: d.headD 0 ::
          compress_tiff_group4 (d.drop (take_consecutive_run d).length)) ∧
    (take_consecutive_run d = [] →
      take_literal_run d = d.take (min 127 (firstPairIdx d)) ∧
      compress_tiff_group4 d =
        (min 127 (firstPairIdx d) - 1) % 256 ::
          (take_literal_run d ++
            compress_tiff_group4 (d.drop (min 127 (firstPairIdx d))))) ∧
    compress_tiff_group4 [0x23, 0xBA, 0xBF, 0xFF, 0xFF, 0xFF, 0xA2, 0x22, 0x2B] =
      [0x02, 0x23, 0xBA, 0xBF, 0xFE, 0xFF, 0x02, 0xA2, 0x22, 0x2B] := by
  refine ⟨tcr_ne_nil_iff d, ?_, ?_, by decide⟩
  · intro hr
    rw [compress_run_eq d hd hr, tcr_headD d hr]
  · intro hr
    have hmin : literalLen d 127 = min 127 (firstPairIdx d) := literalLen_min d 127
    constructor
    · rw [take_literal_run, hmin]
    · rw [compress_lit_eq d hd hr, take_literal_run_length, hmin]

/-- Claim C6 witness: the theorem applied at `[7, 7, 9]` (run at the front)
together with the concrete example. -/
theorem c6_greedy_witness :
    compress_tiff_group4 [7, 7, 9] =
      (256 - ((take_consecutive_run [7, 7, 9]).length - 1)) % 256 ::
        (7 :: compress_tiff_group4
          (([7, 7, 9] : List Nat).drop (take_consecutive_run [7, 7, 9]).length)) ∧
    compress_tiff_group4 [0x23, 0xBA, 0xBF, 0xFF, 0xFF, 0xFF, 0xA2, 0x22, 0x2B] =
      [0x02, 0x23, 0xBA, 0xBF, 0xFE, 0xFF, 0x02, 0xA2, 0x22, 0x2B] :=
  ⟨(c6_greedy [7, 7, 9] (by decide)).2.1 (by decide),
   (c6_greedy [7, 7, 9] (by decide)).2.2.2⟩

/-- Claim C8: for every supported (width class, dpi) combination in the
tape geometry table, `right_margin_pins + printable_dots ≤ total_pins` and
`printable_dots ≤ width_dots`. -/
theorem c8_geometry_invariants (t : Tape) :
    (TapeSpec.new t).right_pins + (TapeSpec.new t).inner_dots ≤
      (TapeSpec.new t).total_pins ∧
    (TapeSpec.new t).inner_dots ≤ (TapeSpec.new t).width_dots := by
  cases t <;> exact ⟨by decide, by decide⟩

/-- Claim C9: for every 32-byte status record, `printer_dpi` returns 360
when the model-id byte (offset 4) is one of 0x6F, 0x70, 0x71, 0x78; 180
when it is 0x5A; and 360 for every other value; the all-zero record yields
dpi 360 and no errors. -/
theorem c9_printer_dpi (s : List Nat) (_h : s.length = 32) :
    ((s.getD 4 0 = 0x6F ∨ s.getD 4 0 = 0x70 ∨ s.getD 4 0 = 0x71 ∨
        s.getD 4 0 = 0x78) → printer_dpi s = 360) ∧
    (s.getD 4 0 = 0x5A → printer_dpi s = 180) ∧
    (¬(s.getD 4 0 = 0x6F ∨ s.getD 4 0 = 0x70 ∨ s.getD 4 0 = 0x71 ∨
        s.getD 4 0 = 0x78) → s.getD 4 0 ≠ 0x5A → printer_dpi s = 360) ∧
    printer_dpi (List.replicate 32 0) = 360 ∧
    has_errors (List.replicate 32 0) = false := by
  refine ⟨?_, ?_, ?_, by decide, by decide⟩
  · intro hm
    show (if s.getD 4 0 = 0x6F ∨ s.getD 4 0 = 0x70 ∨ s.getD 4 0 = 0x71 ∨
        s.getD 4 0 = 0x78 then 360
      else if s.getD 4 0 = 0x5A then 180 else 360) = 360
    rw [if_pos hm]
  · intro h5
    show (if s.getD 4 0 = 0x6F ∨ s.getD 4 0 = 0x70 ∨ s.getD 4 0 = 0x71 ∨
        s.getD 4 0 = 0x78 then 360
      else if s.getD 4 0 = 0x5A then 180 else 360) = 180
    rw [if_neg (by rw [h5]; rintro (hc | hc | hc | hc) <;> omega), if_pos h5]
  · intro hm h5
    show (if s.getD 4 0 = 0x6F ∨ s.getD 4 0 = 0x70 ∨ s.getD 4 0 = 0x71 ∨
        s.getD 4 0 = 0x78 then 360
      else if s.getD 4 0 = 0x5A then 180 else 360) = 360
    rw [if_neg hm, if_neg h5]

/-- Claim C9 witness: the theorem applied to a record with model id 0x5A. -/
theorem c9_printer_dpi_witness :
    printer_dpi ((List.replicate 32 0).set 4 0x5A) = 180 :=
  (c9_printer_dpi ((List.replicate 32 0).set 4 0x5A) (by decide)).2.1 (by decide)

/-- Claim C4 counterexample: a margin amount of 0 dots is not rejected;
`specify_margin_amount` silently encodes it as the margin command
`1B 69 64 00 00`. -/
theorem c4_counterexample :
    specify_margin_amount [] 0 = [0x1B, 0x69, 0x64, 0x00, 0x00] := by decide

/-- Claim C2: if any error bit of the fetched status is set (either
error-bitmask byte nonzero), the print operation aborts with an error and
no command stream is handed to the transport. -/
theorem c2_abort_on_error (status : List Nat) (pngHeight pngWidth : Nat)
    (gray : List Nat) (cont : Bool)
    (h : error_info1 status ≠ 0 ∨ error_info2 status ≠ 0) :
    (handle_print_command status pngHeight pngWidth gray cont).2 = [] ∧
    (handle_print_command status pngHeight pngWidth gray cont).1 =
      Except.error PrintError.printerReportedError := by
  have he : has_errors status = true := by
    rw [has_errors]
    rcases h with h | h
    · simp [h]
    · simp [h]
  rw [handle_print_command, if_pos he]
  exact ⟨rfl, rfl⟩

/-- Claim C2 witness: the theorem applied to a status record whose first
error-bitmask byte is 1. -/
theorem c2_abort_on_error_witness :
    (handle_print_command ((List.replicate 32 0).set 8 1) 170 8 [] false).2 = [] ∧
    (handle_print_command ((List.replicate 32 0).set 8 1) 170 8 [] false).1 =
      Except.error PrintError.printerReportedError :=
  c2_abort_on_error ((List.replicate 32 0).set 8 1) 170 8 [] false
    (Or.inl (by decide))

theorem foldl_transfer_eq (lines : List (List Nat)) :
    ∀ b : List Nat,
      lines.foldl (fun b l => raster_graphics_transfer b (compress_tiff_group4 l)) b =
        b ++ (lines.map fun l => raster_graphics_transfer [] (compress_tiff_group4 l)).flatten := by
  induction lines with
  | nil => intro b; simp
  | cons l ls ih =>
    intro b
    simp only [List.foldl_cons, List.map_cons, List.flatten_cons]
    rw [ih]
    simp only [raster_graphics_transfer, List.nil_append, List.append_assoc]

theorem print_stream_decomp (lines : List (List Nat)) (wmm : Nat) (cont : Bool) :
    printer_print_stream lines wmm cont =
      List.replicate 200 0 ++ ([0x1B, 0x40] ++ ([0x1B, 0x69, 0x61, 0x01] ++
        (print_information_command [] false true (some 0) (some wmm) (some 0)
            lines.length 2 ++
          (various_mode_settings [] (!cont) false ++
            (specify_page_number [] 1 ++
              (advanced_mode_settings [] false true (!cont) false false false ++
                (specify_margin_amount [] 14 ++
                  (select_compression_mode [] true ++
                    ((lines.map fun l =>
                        raster_graphics_transfer [] (compress_tiff_group4 l)).flatten ++
                      [0x1A]))))))))) := by
  rw [printer_print_stream, foldl_transfer_eq]
  simp only [print_command_with_feeding, select_compression_mode,
    specify_margin_amount, advanced_mode_settings, specify_page_number,
    various_mode_settings, print_information_command,
    switch_dynamic_command_mode, initCmd, invalidate,
    List.nil_append, List.append_assoc]

theorem print_records_decomp (lines : List (List Nat)) (wmm : Nat) (cont : Bool) :
    print_records lines wmm cont =
      ([invalidate [], initCmd [], switch_dynamic_command_mode [] 1,
        print_information_command [] false true (some 0) (some wmm) (some 0)
          lines.length 2,
        various_mode_settings [] (!cont) false,
        specify_page_number [] 1,
        advanced_mode_settings [] false true (!cont) false false false,
        specify_margin_amount [] 14,
        select_compression_mode [] true] ++
        (lines.map fun l => raster_graphics_transfer [] (compress_tiff_group4 l))) ++
      [[0x1A]] := rfl

/-- Claim C3: the command stream of `Printer::print` begins with 200 zero
bytes, then the initialize bytes `1B 40`, then the raster-mode switch
`1B 69 61 01`; its final byte is `1A`; and at the record level exactly one
terminal print command record is emitted (`[1A]`, the print-with-feed
command), as the last record — no other record is a terminal print command
(`[1A]` or `[0C]`). -/
theorem c3_stream_structure (lines : List (List Nat)) (wmm : Nat) (cont : Bool) :
    (printer_print_stream lines wmm cont).take 200 = List.replicate 200 0 ∧
    ((printer_print_stream lines wmm cont).drop 200).take 2 = [0x1B, 0x40] ∧
    ((printer_print_stream lines wmm cont).drop 202).take 4 =
      [0x1B, 0x69, 0x61, 0x01] ∧
    (printer_print_stream lines wmm cont).getLast? = some 0x1A ∧
    printer_print_stream lines wmm cont =
      (print_records lines wmm cont).flatten ∧
    (print_records lines wmm cont).getLast? = some [0x1A] ∧
    ∀ r ∈ (print_records lines wmm cont).dropLast, r ≠ [0x1A] ∧ r ≠ [0x0C] := by
  have hdec := print_stream_decomp lines wmm cont
  have hrec := print_records_decomp lines wmm cont
  have hflat : printer_print_stream lines wmm cont =
      (print_records lines wmm cont).flatten := by
    rw [hdec, hrec]
    simp only [List.flatten_append, List.flatten_cons, List.flatten_nil,
      invalidate, initCmd, switch_dynamic_command_mode,
      List.append_assoc, List.append_nil, List.nil_append]
  refine ⟨?_, ?_, ?_, ?_, hflat, ?_, ?_⟩
  · rw [hdec, List.take_left' (List.length_replicate 200 0)]
  · rw [hdec, List.drop_left' (List.length_replicate 200 0),
      List.take_left' (by rfl : ([0x1B, 0x40] : List Nat).length = 2)]
  · have h202 : (printer_print_stream lines wmm cont).drop 202 =
        ((printer_print_stream lines wmm cont).drop 200).drop 2 := by
      rw [List.drop_drop]
    rw [h202, hdec, List.drop_left' (List.length_replicate 200 0),
      List.drop_left' (by rfl : ([0x1B, 0x40] : List Nat).length = 2),
      List.take_left' (by rfl : ([0x1B, 0x69, 0x61, 0x01] : List Nat).length = 4)]
  · rw [hflat, hrec, List.flatten_append]
    have hsing : ([[0x1A]] : List (List Nat)).flatten = [0x1A] := by simp
    rw [hsing, List.getLast?_concat]
  · rw [hrec, List.getLast?_concat]
  · rw [hrec, List.dropLast_concat]
    intro r hr
    rw [List.mem_append] at hr
    rcases hr with hr | hr
    · simp only [List.mem_cons, List.not_mem_nil, or_false] at hr
      rcases hr with rfl | rfl | rfl | rfl | rfl | rfl | rfl | rfl | rfl
      · exact ⟨by decide, by decide⟩
      · exact ⟨by decide, by decide⟩
      · exact ⟨by decide, by decide⟩
      · constructor <;> · intro hc; simp [print_information_command] at hc
      · constructor <;> · intro hc; simp [various_mode_settings] at hc
      · exact ⟨by decide, by decide⟩
      · constructor <;> · intro hc; simp [advanced_mode_settings] at hc
      · exact ⟨by decide, by decide⟩
      · exact ⟨by decide, by decide⟩
    · rw [List.mem_map] at hr
      obtain ⟨l, _, rfl⟩ := hr
      constructor <;> · intro hc; simp [raster_graphics_transfer] at hc

/-- Claim C3 witness: the structure facts at a concrete one-line job. -/
theorem c3_stream_structure_witness :
    (printer_print_stream [[0, 255]] 12 false).take 200 = List.replicate 200 0 ∧
    ((printer_print_stream [[0, 255]] 12 false).drop 200).take 2 = [0x1B, 0x40] ∧
    ((printer_print_stream [[0, 255]] 12 false).drop 202).take 4 =
      [0x1B, 0x69, 0x61, 0x01] ∧
    (printer_print_stream [[0, 255]] 12 false).getLast? = some 0x1A :=
  ⟨(c3_stream_structure [[0, 255]] 12 false).1,
   (c3_stream_structure [[0, 255]] 12 false).2.1,
   (c3_stream_structure [[0, 255]] 12 false).2.2.1,
   (c3_stream_structure [[0, 255]] 12 false).2.2.2.1⟩

/-- Claim C4 (amended): `specify_margin_amount` performs no validation — a
margin amount of 0 dots is silently encoded as `1B 69 64 00 00` rather than
rejected; the print pipeline itself never passes 0, always encoding the
fixed nonzero margin of 14 dots. -/
theorem c4_margin_not_validated (lines : List (List Nat)) (wmm : Nat)
    (cont : Bool) :
    specify_margin_amount [] 0 = [0x1B, 0x69, 0x64, 0x00, 0x00] ∧
    ∃ pre post, printer_print_stream lines wmm cont =
      pre ++ specify_margin_amount [] 14 ++ post := by
  refine ⟨by decide, ?_⟩
  refine ⟨List.replicate 200 0 ++ ([0x1B, 0x40] ++ ([0x1B, 0x69, 0x61, 0x01] ++
      (print_information_command [] false true (some 0) (some wmm) (some 0)
          lines.length 2 ++
        (various_mode_settings [] (!cont) false ++
          (specify_page_number [] 1 ++
            advanced_mode_settings [] false true (!cont) false false false))))),
    select_compression_mode [] true ++
      ((lines.map fun l =>
          raster_graphics_transfer [] (compress_tiff_group4 l)).flatten ++
        [0x1A]), ?_⟩
  rw [print_stream_decomp]
  simp only [List.append_assoc]

/-! ## Lemmas about the rasterizer -/

theorem getD_set_self : ∀ (l : List Nat) (i v : Nat), i < l.length →
    (l.set i v).getD i 0 = v := by
  intro l
  induction l with
  | nil => intro i v h; simp at h
  | cons a r ih =>
    intro i v h
    cases i with
    | zero => rfl
    | succ j =>
      simp only [List.set_cons_succ, List.getD_cons_succ]
      exact ih j v (by simp at h; omega)

theorem getD_set_ne : ∀ (l : List Nat) (i j v : Nat), i ≠ j →
    (l.set i v).getD j 0 = l.getD j 0 := by
  intro l
  induction l with
  | nil => intro i j v _; simp
  | cons a r ih =>
    intro i j v hij
    cases i with
    | zero =>
      cases j with
      | zero => exact absurd rfl hij
      | succ k => rfl
    | succ i' =>
      cases j with
      | zero => rfl
      | succ k =>
        simp only [List.set_cons_succ, List.getD_cons_succ]
        exact ih i' k v (by omega)

theorem getD_mem : ∀ (l : List Nat) (i : Nat), i < l.length → l.getD i 0 ∈ l := by
  intro l
  induction l with
  | nil => intro i h; simp at h
  | cons a r ih =>
    intro i h
    cases i with
    | zero => exact List.mem_cons_self a r
    | succ j =>
      simp only [List.getD_cons_succ]
      exact List.mem_cons_of_mem a (ih j (by simp at h; omega))

theorem get_pin_bit_set_self (line : List Nat) (pin : Nat)
    (h : pin / 8 < line.length) : get_pin_bit (set_pin line pin) pin = true := by
  rw [get_pin_bit, set_pin, getD_set_self _ _ _ h]
  rw [Nat.shiftLeft_eq, one_mul, Nat.testBit_lor, Nat.testBit_two_pow_self]
  simp

theorem get_pin_bit_set_ne (line : List Nat) (pin p : Nat) (hne : p ≠ pin) :
    get_pin_bit (set_pin line pin) p = get_pin_bit line p := by
  rw [get_pin_bit, set_pin, get_pin_bit]
  by_cases hb : pin / 8 = p / 8
  · by_cases hlen : pin / 8 < line.length
    · rw [hb] at hlen ⊢
      rw [getD_set_self _ _ _ hlen]
      rw [Nat.shiftLeft_eq, one_mul, Nat.testBit_lor]
      have hm8 : p % 8 ≠ pin % 8 := by
        intro hc
        apply hne
        have h1 := Nat.div_add_mod p 8
        have h2 := Nat.div_add_mod pin 8
        omega
      have hp8 : p % 8 < 8 := Nat.mod_lt _ (by omega)
      have hpin8 : pin % 8 < 8 := Nat.mod_lt _ (by omega)
      rw [Nat.testBit_two_pow_of_ne (by omega)]
      simp
    · rw [List.set_eq_of_length_le (by omega)]
  · rw [getD_set_ne _ _ _ _ hb]

theorem get_pin_bit_replicate_zero (n p : Nat) :
    get_pin_bit (List.replicate n 0) p = false := by
  rw [get_pin_bit]
  by_cases h : p / 8 < n
  · rw [getD_replicate 0 n _ h]
    exact Nat.zero_testBit _
  · rw [List.getD_eq_default _ _ (by rw [List.length_replicate]; omega)]
    exact Nat.zero_testBit _

theorem raster_step_length (spec : TapeSpec) (gray : List Nat)
    (width x margin : Nat) (line : List Nat) (y : Nat) :
    (raster_step spec gray width x margin line y).length = line.length := by
  rw [raster_step]
  split_ifs <;> simp [set_pin]

theorem foldl_raster_step_length (spec : TapeSpec) (gray : List Nat)
    (width x margin : Nat) :
    ∀ (ys : List Nat) (line : List Nat),
      (ys.foldl (raster_step spec gray width x margin) line).length = line.length := by
  intro ys
  induction ys with
  | nil => intro line; rfl
  | cons y ys ih =>
    intro line
    rw [List.foldl_cons, ih, raster_step_length]

theorem foldl_raster_step_getBit (spec : TapeSpec) (gray : List Nat)
    (width x margin : Nat) (h8 : spec.total_pins % 8 = 0) :
    ∀ (ys : List Nat) (line : List Nat), line.length = spec.total_pins / 8 →
      ∀ p, get_pin_bit (ys.foldl (raster_step spec gray width x margin) line) p =
        (get_pin_bit line p ||
          ys.any fun y =>
            decide (spec.right_pins + (y - margin) < spec.total_pins) &&
            decide (y * width + x < gray.length) &&
            decide (gray.getD (y * width + x) 0 < 127) &&
            decide (spec.right_pins + (y - margin) = p)) := by
  intro ys
  induction ys with
  | nil => intro line _ p; simp
  | cons y ys ih =>
    intro line hlen p
    rw [List.foldl_cons,
      ih (raster_step spec gray width x margin line y)
        (by rw [raster_step_length, hlen]) p]
    have hstep : get_pin_bit (raster_step spec gray width x margin line y) p =
        (get_pin_bit line p ||
          (decide (spec.right_pins + (y - margin) < spec.total_pins) &&
            decide (y * width + x < gray.length) &&
            decide (gray.getD (y * width + x) 0 < 127) &&
            decide (spec.right_pins + (y - margin) = p))) := by
      rw [raster_step]
      by_cases h1 : spec.right_pins + (y - margin) < spec.total_pins
      · rw [if_pos h1]
        by_cases h2 : y * width + x < gray.length
        · rw [if_pos h2]
          by_cases h3 : gray.getD (y * width + x) 0 < 127
          · rw [if_pos h3]
            by_cases hp : spec.right_pins + (y - margin) = p
            · rw [hp] at h1 ⊢
              have hbound : p / 8 < line.length := by
                rw [hlen]
                have h8' : (8 : Nat) ∣ spec.total_pins := Nat.dvd_of_mod_eq_zero h8
                exact Nat.div_lt_div_of_lt_of_dvd h8' h1
              rw [get_pin_bit_set_self _ _ hbound]
              rw [decide_eq_true h1, decide_eq_true h2, decide_eq_true h3,
                decide_eq_true (rfl : p = p)]
              simp
            · rw [get_pin_bit_set_ne _ _ _ (fun hc => hp hc.symm)]
              rw [decide_eq_false hp]
              simp
          · rw [if_neg h3]
            rw [decide_eq_false h3]
            simp
        · rw [if_neg h2]
          rw [decide_eq_false h2]
          simp
      · rw [if_neg h1]
        rw [decide_eq_false h1]
        simp
    rw [hstep, List.any_cons, ← Bool.or_assoc]

theorem build_raster_line_length (gray : List Nat) (width height : Nat)
    (spec : TapeSpec) (x : Nat) :
    (build_raster_line gray width height spec x).length = spec.total_pins / 8 := by
  rw [build_raster_line, foldl_raster_step_length, List.length_replicate]

theorem tape_facts (t : Tape) :
    (TapeSpec.new t).total_pins % 8 = 0 ∧
    ((TapeSpec.new t).width_dots - (TapeSpec.new t).inner_dots) / 2 +
      (TapeSpec.new t).inner_dots ≤ (TapeSpec.new t).width_dots ∧
    (TapeSpec.new t).right_pins + (TapeSpec.new t).inner_dots ≤
      (TapeSpec.new t).total_pins := by
  cases t <;> exact ⟨by decide, by decide, by decide⟩

/-- Claim C10: for every decodable bitmap and every tape geometry in the
table, regardless of bitmap height or content, every produced raster line
has exactly `total_pins/8` bytes and only pins inside
`[right_margin_pins, right_margin_pins + printable_dots)` can ever be set. -/
theorem c10_line_invariants (t : Tape) (w h : Nat) (gray : List Nat) :
    ∀ line ∈ png_to_raster_lines gray w h (TapeSpec.new t),
      line.length = (TapeSpec.new t).total_pins / 8 ∧
      ∀ p, ¬((TapeSpec.new t).right_pins ≤ p ∧
          p < (TapeSpec.new t).right_pins + (TapeSpec.new t).inner_dots) →
        get_pin_bit line p = false := by
  intro line hline
  rw [png_to_raster_lines, List.mem_map] at hline
  obtain ⟨x, _, rfl⟩ := hline
  refine ⟨build_raster_line_length _ _ _ _ _, ?_⟩
  intro p hp
  obtain ⟨h8, hmw, hrt⟩ := tape_facts t
  rw [build_raster_line,
    foldl_raster_step_getBit _ _ _ _ _ h8 _ _ (List.length_replicate _ _) p,
    get_pin_bit_replicate_zero, Bool.false_or]
  rw [List.any_eq_false]
  intro y hy
  rw [List.mem_range'_1] at hy
  have hpin : (TapeSpec.new t).right_pins + (y - ((TapeSpec.new t).width_dots -
      (TapeSpec.new t).inner_dots) / 2) ≠ p := by
    omega
  rw [decide_eq_false hpin]
  simp

/-- Claim C10 witness: a concrete line of a 2-column image on 3.5mm/180dpi
tape has 16 bytes and pin 0 (outside the printable window) clear. -/
theorem c10_line_invariants_witness :
    ((png_to_raster_lines (List.replicate 24 0) 2 24
        (TapeSpec.new Tape.TZe3L)).getD 0 []).length = 16 ∧
    get_pin_bit ((png_to_raster_lines (List.replicate 24 0) 2 24
        (TapeSpec.new Tape.TZe3L)).getD 0 []) 0 = false :=
  ⟨(c10_line_invariants Tape.TZe3L 2 24 (List.replicate 24 0) _ (by decide)).1,
   (c10_line_invariants Tape.TZe3L 2 24 (List.replicate 24 0) _ (by decide)).2
     0 (by decide)⟩

/-- Claim C7: for a bitmap whose height equals the geometry's `width_dots`,
an all-white buffer (every grayscale value ≥ 127) rasterizes to one all-zero
line of `total_pins/8` bytes per column, and an all-black buffer (every
value < 127) produces lines whose set pins are exactly those in
`[right_margin_pins, right_margin_pins + printable_dots)`. -/
theorem c7_white_black :
    (∀ (t : Tape) (w : Nat) (gray : List Nat),
      gray.length = w * (TapeSpec.new t).width_dots →
      (∀ v ∈ gray, 127 ≤ v) →
      png_to_raster_lines gray w (TapeSpec.new t).width_dots (TapeSpec.new t) =
        List.replicate w (List.replicate ((TapeSpec.new t).total_pins / 8) 0)) ∧
    (∀ (t : Tape) (w : Nat) (gray : List Nat),
      gray.length = w * (TapeSpec.new t).width_dots →
      (∀ v ∈ gray, v < 127) →
      ∀ line ∈ png_to_raster_lines gray w (TapeSpec.new t).width_dots
        (TapeSpec.new t),
        ∀ pin, pin < (TapeSpec.new t).total_pins →
          (get_pin_bit line pin = true ↔
            ((TapeSpec.new t).right_pins ≤ pin ∧
              pin < (TapeSpec.new t).right_pins + (TapeSpec.new t).inner_dots))) := by
  constructor
  · intro t w gray _ hwhite
    rw [png_to_raster_lines]
    refine List.eq_replicate_iff.mpr ⟨by simp, ?_⟩
    intro b hb
    rw [List.mem_map] at hb
    obtain ⟨x, _, rfl⟩ := hb
    rw [build_raster_line]
    have hstep : ∀ (l : List Nat) (y : Nat),
        raster_step (TapeSpec.new t) gray w x
          (((TapeSpec.new t).width_dots - (TapeSpec.new t).inner_dots) / 2) l y = l := by
      intro l y
      rw [raster_step]
      by_cases h1 : (TapeSpec.new t).right_pins +
          (y - ((TapeSpec.new t).width_dots - (TapeSpec.new t).inner_dots) / 2) <
          (TapeSpec.new t).total_pins
      · rw [if_pos h1]
        by_cases h2 : y * w + x < gray.length
        · rw [if_pos h2]
          have h3 : ¬ gray.getD (y * w + x) 0 < 127 := by
            have := hwhite _ (getD_mem gray _ h2)
            omega
          rw [if_neg h3]
        · rw [if_neg h2]
      · rw [if_neg h1]
    generalize List.range' _ _ = ys
    induction ys with
    | nil => rfl
    | cons y ys ih => rw [List.foldl_cons, hstep, ih]
  · intro t w gray hlen hblack line hline pin hpin
    rw [png_to_raster_lines, List.mem_map] at hline
    obtain ⟨x, hx, rfl⟩ := hline
    rw [List.mem_range] at hx
    obtain ⟨h8, hmw, hrt⟩ := tape_facts t
    rw [build_raster_line,
      foldl_raster_step_getBit _ _ _ _ _ h8 _ _ (List.length_replicate _ _) pin,
      get_pin_bit_replicate_zero, Bool.false_or]
    rw [List.any_eq_true]
    constructor
    · rintro ⟨y, hy, hcond⟩
      rw [List.mem_range'_1] at hy
      simp only [Bool.and_eq_true, decide_eq_true_eq] at hcond
      obtain ⟨⟨⟨_, _⟩, _⟩, hc4⟩ := hcond
      constructor
      · omega
      · omega
    · intro hwin
      refine ⟨((TapeSpec.new t).width_dots - (TapeSpec.new t).inner_dots) / 2 +
        (pin - (TapeSpec.new t).right_pins), ?_, ?_⟩
      · rw [List.mem_range'_1]
        constructor
        · omega
        · omega
      · have hy_lt : ((TapeSpec.new t).width_dots - (TapeSpec.new t).inner_dots) / 2 +
            (pin - (TapeSpec.new t).right_pins) < (TapeSpec.new t).width_dots := by
          omega
        have hidx : (((TapeSpec.new t).width_dots - (TapeSpec.new t).inner_dots) / 2 +
            (pin - (TapeSpec.new t).right_pins)) * w + x < gray.length := by
          rw [hlen]
          have h1 : (((TapeSpec.new t).width_dots - (TapeSpec.new t).inner_dots) / 2 +
              (pin - (TapeSpec.new t).right_pins)) * w + x <
              (((TapeSpec.new t).width_dots - (TapeSpec.new t).inner_dots) / 2 +
                (pin - (TapeSpec.new t).right_pins)) * w + w := by omega
          have h2 : (((TapeSpec.new t).width_dots - (TapeSpec.new t).inner_dots) / 2 +
              (pin - (TapeSpec.new t).right_pins)) * w + w ≤
              (TapeSpec.new t).width_dots * w := by
            rw [← Nat.succ_mul]
            exact Nat.mul_le_mul_right _ (by omega)
          rw [Nat.mul_comm w ((TapeSpec.new t).width_dots)] at hlen ⊢
          omega
        simp only [Bool.and_eq_true, decide_eq_true_eq]
        refine ⟨⟨⟨?_, hidx⟩, ?_⟩, ?_⟩
        · omega
        · exact hblack _ (getD_mem gray _ hidx)
        · omega

/-- Claim C7 witness: the theorem applied on 3.5mm/180dpi tape to a
one-column all-white and all-black bitmap of height 24. -/
theorem c7_white_black_witness :
    png_to_raster_lines (List.replicate 24 255) 1 24 (TapeSpec.new Tape.TZe3L) =
      List.replicate 1 (List.replicate 16 0) ∧
    (get_pin_bit ((png_to_raster_lines (List.replicate 24 0) 1 24
        (TapeSpec.new Tape.TZe3L)).getD 0 []) 52 = true ↔
      (52 ≤ 52 ∧ 52 < 52 + 24)) :=
  ⟨c7_white_black.1 Tape.TZe3L 1 (List.replicate 24 255) (by decide) (by decide),
   c7_white_black.2 Tape.TZe3L 1 (List.replicate 24 0) (by decide) (by decide)
     _ (by decide) 52 (by decide)⟩

end Ptouch
